import Mathlib

/-!
Shallow embedding of `scripts/lib/api.py` (Prometheus/Pyroscope API helpers),
centred on the flamegraph self-time aggregator `pyro_top_functions` and the
Prometheus instant-query reshaper `prom_instant`.

Python lists are `List`, Python ints are `Int`, Python `dict` (insertion
ordered) is an association `List (String × Int)` updated in place, and a
Python exception escaping a function is `Except.error`.

The float `pct = round(val / total * 100, 1)` is an exact multiple of 0.1,
so it is stored losslessly as an integer count of tenths of a percent
(`40.0` is `400`), computed by integer round-half-to-even; the lemma
`roundHalfEvenInt_eq` below proves this integer computation equal to the
mathematical rounding of the exact rational `val / total * 1000`.
-/

namespace PyroApi

/-- Python sequence indexing `xs[i]` for a possibly negative `i`: a
non-negative index reads from the front, a negative index `i` reads
position `len + i`, and anything else raises `IndexError` (here `none`). -/
def pyListGet {α : Type} (xs : List α) (i : Int) : Option α :=
  if 0 ≤ i then xs.get? i.toNat
  else if 0 ≤ (xs.length : Int) + i then xs.get? ((xs.length : Int) + i).toNat
  else none

/-- Python slice `xs[:n]` for an `int` n: a non-negative `n` keeps the first
`n` elements, a negative `n` keeps everything but the last `-n` elements
(i.e. the first `len + n`, clamped at zero by `Int.toNat`). -/
def pyTake {α : Type} (n : Int) (xs : List α) : List α :=
  if 0 ≤ n then xs.take n.toNat else xs.take ((xs.length : Int) + n).toNat

/-- Python's `round` to the nearest integer, ties to even, applied to the
exact rational `a / b` (`b ≠ 0`), computed with integer arithmetic only:
after making the denominator positive, `f` is the floor and `r` the
remainder, and the fractional part `r / b` is compared with `1 / 2`. -/
def roundHalfEvenInt (a b : Int) : Int :=
  let a' := if b < 0 then -a else a
  let b' := if b < 0 then -b else b
  let f := a'.fdiv b'
  let r := a' - f * b'
  if 2 * r < b' then f
  else if b' < 2 * r then f + 1
  else if f % 2 = 0 then f else f + 1

/-- Mathematical round-half-to-even on a rational, the reference meaning of
Python's `round(q)`. -/
def roundHalfEvenQ (q : ℚ) : Int :=
  if q - ⌊q⌋ < 1/2 then ⌊q⌋
  else if 1/2 < q - ⌊q⌋ then ⌊q⌋ + 1
  else if ⌊q⌋ % 2 = 0 then ⌊q⌋ else ⌊q⌋ + 1

/-- Python `round(q, 1)`: round to one decimal place, ties to even. -/
def pyRound1 (q : ℚ) : ℚ := (roundHalfEvenQ (q * 10) : ℚ) / 10

/-- The `flamebearer` section of a Pyroscope render payload, already decoded
to its expected shape: `names` (function names), `levels` (each level a flat
run of ints), `numTicks`. A missing section decodes to `⟨[], [], 0⟩`, exactly
what `data.get("flamebearer", {})` followed by the three `fb.get` calls
produces in the source. -/
structure Flamebearer where
  names : List String
  levels : List (List Int)
  numTicks : Int
deriving Repr, DecidableEq

/-- One element of the list returned by `pyro_top_functions`:
`{"function": str, "self": int, "pct": float}`, the float `pct` stored as an
integer count of tenths of a percent. -/
structure TopEntry where
  function : String
  self : Int
  pct : Int
deriving Repr, DecidableEq

instance {ε α : Type} [DecidableEq ε] [DecidableEq α] : DecidableEq (Except ε α) :=
  fun x y =>
    match x, y with
    | Except.ok a, Except.ok b =>
        if h : a = b then isTrue (by rw [h]) else isFalse (fun hc => by cases hc; exact h rfl)
    | Except.error a, Except.error b =>
        if h : a = b then isTrue (by rw [h]) else isFalse (fun hc => by cases hc; exact h rfl)
    | Except.ok _, Except.error _ => isFalse (fun hc => by cases hc)
    | Except.error _, Except.ok _ => isFalse (fun hc => by cases hc)

/-- The dict update `self_map[nm] = self_map.get(nm, 0) + v` on an
insertion-ordered dict: an existing key keeps its position, a new key is
appended at the end. -/
def updateAcc : List (String × Int) → String → Int → List (String × Int)
  | [], nm, v => [(nm, v)]
  | (k, x) :: rest, nm, v =>
      if k = nm then (k, x + v) :: rest else (k, x) :: updateAcc rest nm v

/-- The inner `while i + 3 < len(level)` loop of `pyro_top_functions`,
walking one level in steps of 4: with `name_idx = level[i+3]` and
`self_val = level[i+2]`, a group passing `name_idx < len(names) and
self_val > 0` adds `self_val` under `names[name_idx]`; any list with fewer
than 4 elements left ends the loop. `names[name_idx]` with a negative
`name_idx` below `-len(names)` raises `IndexError`. -/
def scanLevel (names : List String) : List (String × Int) → List Int →
    Except String (List (String × Int))
  | acc, _ :: _ :: c :: d :: rest =>
      if d < (names.length : Int) ∧ 0 < c then
        match pyListGet names d with
        | some nm => scanLevel names (updateAcc acc nm c) rest
        | none => Except.error "IndexError"
      else scanLevel names acc rest
  | acc, _ => Except.ok acc

/-- The `for level in levels` loop building `self_map`. -/
def buildSelfMap (names : List String) : List (List Int) → List (String × Int) →
    Except String (List (String × Int))
  | [], acc => Except.ok acc
  | lvl :: rest, acc =>
      match scanLevel names acc lvl with
      | Except.ok acc2 => buildSelfMap names rest acc2
      | Except.error e => Except.error e

/-- The sort order of `sorted(self_map.items(), key=lambda x: -x[1])`:
ascending in `-x[1]`, i.e. `p` before `q` when `q.2 ≤ p.2`. -/
def selfGE (p q : String × Int) : Prop := q.2 ≤ p.2

instance : DecidableRel selfGE := fun p q => inferInstanceAs (Decidable (q.2 ≤ p.2))

instance : IsTotal (String × Int) selfGE := ⟨fun a b => le_total b.2 a.2⟩

instance : IsTrans (String × Int) selfGE := ⟨fun _ _ _ h1 h2 => le_trans h2 h1⟩

/-- Python's `sorted` with key `-x[1]`: a stable descending sort on the
value. Insertion sort placing each element before the first element it is
`selfGE`-related to is stable and sorted, matching CPython's stable sort. -/
def sortDesc (l : List (String × Int)) : List (String × Int) :=
  List.insertionSort selfGE l

/-- The percentage field: `round(val / total * 100, 1)` in tenths of a
percent, i.e. the exact rational `val * 1000 / total` rounded half-to-even. -/
def pctTenths (val total : Int) : Int := roundHalfEvenInt (1000 * val) total

/-- `pyro_top_functions` after the fetch: `data` is the rendered payload
(`none` when `pyro_render` returned `None`), `n` the result size. Mirrors
the source line by line: `None` payload and `numTicks == 0` return `[]`,
otherwise the levels are scanned into `self_map`, sorted descending by
self-time, cut with the Python slice `[:n]`, and formatted with
`pct = round(val / total * 100, 1)`. -/
def pyro_top_functions (data : Option Flamebearer) (n : Int) :
    Except String (List TopEntry) :=
  match data with
  | none => Except.ok []
  | some fb =>
      if fb.numTicks = 0 then Except.ok []
      else
        match buildSelfMap fb.names fb.levels [] with
        | Except.error e => Except.error e
        | Except.ok m =>
            Except.ok ((pyTake n (sortDesc m)).map (fun p =>
              { function := p.1, self := p.2, pct := pctTenths p.2 fb.numTicks }))

/-- Lookup in the association-list model of `self_map`, with the dict's
`get(nm, 0)` default: the accumulated self-time of `nm`, `0` if absent. -/
def lookupD : List (String × Int) → String → Int
  | [], _ => 0
  | (k, v) :: rest, nm => if k = nm then v else lookupD rest nm

/-- Sum of all accumulated self-times in a `self_map`. -/
def sumVals (l : List (String × Int)) : Int := (l.map Prod.snd).sum

/-- Reference total for one level, following the spec: the sum of the
`self_ticks` field (3rd of each complete 4-group) over the groups whose
name index resolves to `nm` and whose self-ticks are positive. -/
def specLevelTotal (names : List String) (nm : String) : List Int → Int
  | _ :: _ :: c :: d :: rest =>
      (if pyListGet names d = some nm ∧ 0 < c then c else 0) +
        specLevelTotal names nm rest
  | _ => 0

/-- Reference total across all levels (positive-self groups only). -/
def specTotal (names : List String) (levels : List (List Int)) (nm : String) : Int :=
  (levels.map (specLevelTotal names nm)).sum

/-- Claim-side total for one level, following the claim's words literally:
the sum of `self_ticks` over every complete group referencing `nm`,
with no positivity restriction. -/
def claimLevelTotalAll (names : List String) (nm : String) : List Int → Int
  | _ :: _ :: c :: d :: rest =>
      (if pyListGet names d = some nm then c else 0) +
        claimLevelTotalAll names nm rest
  | _ => 0

/-- Claim-side total across all levels (every referencing group). -/
def claimTotalAll (names : List String) (levels : List (List Int)) (nm : String) : Int :=
  (levels.map (claimLevelTotalAll names nm)).sum

/-- The raw self-ticks of one level: the 3rd field of every complete
4-group, unconditionally. -/
def rawSelfLevel : List Int → Int
  | _ :: _ :: c :: _ :: rest => c + rawSelfLevel rest
  | _ => 0

/-- The raw self-ticks of a whole payload. -/
def rawSelfTotal (levels : List (List Int)) : Int :=
  (levels.map rawSelfLevel).sum

/-- A well-formed flamebearer, per the spec's data model: `numTicks` is a
non-negative total sample count, each level is a whole number of 4-integer
frame groups of non-negative fields, and the self-ticks of all frames sum
to at most the total sample count. -/
structure ValidFlamebearer (fb : Flamebearer) : Prop where
  ticks_nonneg : 0 ≤ fb.numTicks
  levels_mul4 : ∀ lvl ∈ fb.levels, lvl.length % 4 = 0
  fields_nonneg : ∀ lvl ∈ fb.levels, ∀ v ∈ lvl, 0 ≤ v
  self_le_ticks : rawSelfTotal fb.levels ≤ fb.numTicks

/-- Entries of a `self_map` whose accumulated total is `k` (Bool-valued
for `List.filter`). -/
def keyIs (k : Int) (p : String × Int) : Bool := p.2 == k

/-- Output entries whose `self` field is `k` (Bool-valued for
`List.filter`). -/
def entryKeyIs (k : Int) (e : TopEntry) : Bool := e.self == k

/-- One row of a Prometheus instant-query `result` array: its `metric`
label set and its `value` pair. An element of `value` is `some q` when
Python's `float()` accepts it and `none` when `float()` raises
`ValueError`/`TypeError` on it. -/
structure PromRow where
  metric : List (String × String)
  value : List (Option ℚ)

/-- Label lookup `r["metric"].get(key)`. -/
def lookupLabel : List (String × String) → String → Option String
  | [], _ => none
  | (k, v) :: rest, key => if k = key then some v else lookupLabel rest key

/-- Python `s.split(":")[0]`: the part of `s` before the first colon, i.e.
its longest colon-free prefix (`split` always yields a non-empty list, so
`[0]` cannot fail). -/
def beforeColon (s : String) : String :=
  String.mk (s.data.takeWhile (fun ch => ch ≠ ':'))

/-- Python dict assignment `out[k] = v` on an insertion-ordered dict: an
existing key is overwritten in place, a new key appended. -/
def pyDictInsert : List (String × ℚ) → String → ℚ → List (String × ℚ)
  | [], k, v => [(k, v)]
  | (k', v') :: rest, k, v =>
      if k' = k then (k, v) :: rest else (k', v') :: pyDictInsert rest k v

/-- One iteration of the `for r in prom_query(...)` loop of `prom_instant`:
the instance label (default `"unknown"`) is cut at the first colon, and the
row is stored unless `float(r["value"][1])` fails (missing index or
unparsable value), in which case the row is skipped with a warning. -/
def promStep (out : List (String × ℚ)) (r : PromRow) : List (String × ℚ) :=
  let inst := beforeColon ((lookupLabel r.metric "instance").getD "unknown")
  match r.value.get? 1 with
  | some (some v) => pyDictInsert out inst v
  | _ => out

/-- `prom_instant` after the fetch: folds the result rows into the
`{instance: value}` mapping. -/
def prom_instant (rows : List PromRow) : List (String × ℚ) :=
  rows.foldl promStep []

example :
    pyro_top_functions (some ⟨["a", "b"], [[0,10,3,0, 0,7,4,1]], 10⟩) 2 =
      Except.ok [⟨"b", 4, 400⟩, ⟨"a", 3, 300⟩] := by decide

example :
    pyro_top_functions (some ⟨["a"], [[0,5,2,0],[0,5,3,0]], 5⟩) 5 =
      Except.ok [⟨"a", 5, 1000⟩] := by decide

example :
    pyro_top_functions (some ⟨["a"], [[0,1,1,-2]], 1⟩) 5 =
      Except.error "IndexError" := by decide

example :
    pyro_top_functions (some ⟨["a", "b"], [[0,10,3,0, 0,7,4,1]], 10⟩) (-1) =
      Except.ok [⟨"b", 4, 400⟩] := by decide

example :
    pyro_top_functions (some ⟨["a", "b"], [[0,5,3,-1]], 5⟩) 5 =
      Except.ok [⟨"b", 3, 600⟩] := by decide

example :
    pyro_top_functions (some ⟨["a"], [[0,5,0,0]], 5⟩) 5 = Except.ok [] := by decide

theorem lookupD_updateAcc (acc : List (String × Int)) (nm x : String) (v : Int) :
    lookupD (updateAcc acc nm v) x = lookupD acc x + (if nm = x then v else 0) := by
  induction acc with
  | nil =>
      by_cases h : nm = x <;> simp [updateAcc, lookupD, h]
  | cons p rest ih =>
      obtain ⟨k, w⟩ := p
      by_cases hk : k = nm
      · subst hk
        by_cases hx : k = x <;> simp [updateAcc, lookupD, hx]
      · by_cases hx : k = x
        · subst hx
          have hnm : ¬ nm = k := fun h => hk h.symm
          simp [updateAcc, lookupD, hk, hnm]
        · simp [updateAcc, lookupD, hk, hx, ih]

theorem sumVals_updateAcc (acc : List (String × Int)) (nm : String) (v : Int) :
    sumVals (updateAcc acc nm v) = sumVals acc + v := by
  induction acc with
  | nil => simp [updateAcc, sumVals]
  | cons p rest ih =>
      obtain ⟨k, w⟩ := p
      by_cases hk : k = nm
      · simp [updateAcc, hk, sumVals]
        ring
      · simp [updateAcc, hk, sumVals] at ih ⊢
        omega

theorem pos_updateAcc (acc : List (String × Int)) (nm : String) (v : Int)
    (hv : 0 < v) (h : ∀ q ∈ acc, 0 < q.2) :
    ∀ q ∈ updateAcc acc nm v, 0 < q.2 := by
  induction acc with
  | nil =>
      intro q hq
      simp [updateAcc] at hq
      simp [hq, hv]
  | cons p rest ih =>
      obtain ⟨k, w⟩ := p
      intro q hq
      by_cases hk : k = nm
      · simp [updateAcc, hk] at hq
        rcases hq with hq | hq
        · have hw : 0 < w := h (k, w) (by simp)
          simp [hq]
          omega
        · exact h q (List.mem_cons_of_mem _ hq)
      · simp [updateAcc, hk] at hq
        rcases hq with hq | hq
        · subst hq
          exact h (k, w) (by simp)
        · exact ih (fun r hr => h r (List.mem_cons_of_mem _ hr)) q hq

theorem scanLevel_short (names : List String) (acc : List (String × Int))
    (t : List Int) (h : ∀ a b c d rest, t ≠ a :: b :: c :: d :: rest) :
    scanLevel names acc t = Except.ok acc := by
  match t with
  | [] => rfl
  | [_] => rfl
  | [_, _] => rfl
  | [_, _, _] => rfl
  | a :: b :: c :: d :: rest => exact absurd rfl (h a b c d rest)

theorem scanLevel_lookupD (names : List String) (acc : List (String × Int))
    (lvl : List Int) (m : List (String × Int))
    (hok : scanLevel names acc lvl = Except.ok m) (x : String) :
    lookupD m x = lookupD acc x + specLevelTotal names x lvl := by
  induction acc, lvl using scanLevel.induct names with
  | case1 acc a b c d rest hcond nm hnm ih =>
      rw [scanLevel, if_pos hcond, hnm] at hok
      have := ih hok
      rw [this, lookupD_updateAcc]
      by_cases hx : nm = x
      · subst hx
        simp [specLevelTotal, hnm, hcond.2]
        ring
      · have : ¬ (pyListGet names d = some x ∧ 0 < c) := by
          rintro ⟨h1, _⟩
          rw [hnm] at h1
          exact hx (Option.some.injEq _ _ ▸ h1)
        simp [specLevelTotal, this, hx]
  | case2 acc a b c d rest hcond hnone =>
      rw [scanLevel, if_pos hcond, hnone] at hok
      cases hok
  | case3 acc a b c d rest hcond ih =>
      rw [scanLevel, if_neg hcond] at hok
      have := ih hok
      rw [this]
      have hz : ¬ (pyListGet names d = some x ∧ 0 < c) := by
        rintro ⟨h1, h2⟩
        apply hcond
        refine ⟨?_, h2⟩
        by_cases hd : 0 ≤ d
        · unfold pyListGet at h1
          rw [if_pos hd] at h1
          have := List.get?_eq_some.1 h1
          obtain ⟨hlt, -⟩ := this
          omega
        · push_neg at hd
          omega
      simp [specLevelTotal, hz]
  | case4 t acc hshort =>
      rw [scanLevel_short names acc t
        (fun a b c d rest he => hshort a b c d rest he)] at hok
      cases hok
      have : specLevelTotal names x t = 0 := by
        match t with
        | [] => rfl
        | [_] => rfl
        | [_, _] => rfl
        | [_, _, _] => rfl
        | a :: b :: c :: d :: rest => exact absurd rfl (hshort a b c d rest)
      omega

theorem buildSelfMap_lookupD (names : List String) (levels : List (List Int))
    (acc m : List (String × Int)) (hok : buildSelfMap names levels acc = Except.ok m)
    (x : String) : lookupD m x = lookupD acc x + specTotal names levels x := by
  induction levels generalizing acc with
  | nil =>
      cases hok
      simp [specTotal]
  | cons lvl rest ih =>
      unfold buildSelfMap at hok
      cases hsc : scanLevel names acc lvl with
      | ok acc2 =>
          rw [hsc] at hok
          have h2 := ih acc2 hok
          have h1 := scanLevel_lookupD names acc lvl acc2 hsc x
          rw [h2, h1]
          simp [specTotal]
          ring
      | error e =>
          rw [hsc] at hok
          cases hok

theorem scanLevel_sumVals_le (names : List String) (acc : List (String × Int))
    (lvl : List Int) (m : List (String × Int)) (hnn : ∀ v ∈ lvl, 0 ≤ v)
    (hok : scanLevel names acc lvl = Except.ok m) :
    sumVals m ≤ sumVals acc + rawSelfLevel lvl := by
  induction acc, lvl using scanLevel.induct names with
  | case1 acc a b c d rest hcond nm hnm ih =>
      rw [scanLevel, if_pos hcond, hnm] at hok
      have hrest : ∀ v ∈ rest, 0 ≤ v := fun v hv => hnn v (by simp [hv])
      have := ih hrest hok
      rw [sumVals_updateAcc] at this
      rw [rawSelfLevel]
      omega
  | case2 acc a b c d rest hcond hnone =>
      rw [scanLevel, if_pos hcond, hnone] at hok
      cases hok
  | case3 acc a b c d rest hcond ih =>
      rw [scanLevel, if_neg hcond] at hok
      have hrest : ∀ v ∈ rest, 0 ≤ v := fun v hv => hnn v (by simp [hv])
      have := ih hrest hok
      have hc : 0 ≤ c := hnn c (by simp)
      rw [rawSelfLevel]
      omega
  | case4 t acc hshort =>
      rw [scanLevel_short names acc t
        (fun a b c d rest he => hshort a b c d rest he)] at hok
      cases hok
      have : rawSelfLevel t = 0 := by
        match t with
        | [] => rfl
        | [_] => rfl
        | [_, _] => rfl
        | [_, _, _] => rfl
        | a :: b :: c :: d :: rest => exact absurd rfl (hshort a b c d rest)
      omega

theorem buildSelfMap_sumVals_le (names : List String) (levels : List (List Int))
    (acc m : List (String × Int)) (hnn : ∀ lvl ∈ levels, ∀ v ∈ lvl, 0 ≤ v)
    (hok : buildSelfMap names levels acc = Except.ok m) :
    sumVals m ≤ sumVals acc + rawSelfTotal levels := by
  induction levels generalizing acc with
  | nil =>
      cases hok
      simp [rawSelfTotal]
  | cons lvl rest ih =>
      unfold buildSelfMap at hok
      cases hsc : scanLevel names acc lvl with
      | ok acc2 =>
          rw [hsc] at hok
          have h1 := scanLevel_sumVals_le names acc lvl acc2 (hnn lvl (by simp)) hsc
          have h2 := ih acc2 (fun l hl => hnn l (List.mem_cons_of_mem _ hl)) hok
          have : rawSelfTotal (lvl :: rest) = rawSelfLevel lvl + rawSelfTotal rest := by
            simp [rawSelfTotal]
          omega
      | error e =>
          rw [hsc] at hok
          cases hok

theorem scanLevel_pos (names : List String) (acc : List (String × Int))
    (lvl : List Int) (m : List (String × Int)) (hp : ∀ q ∈ acc, 0 < q.2)
    (hok : scanLevel names acc lvl = Except.ok m) : ∀ q ∈ m, 0 < q.2 := by
  induction acc, lvl using scanLevel.induct names with
  | case1 acc a b c d rest hcond nm hnm ih =>
      rw [scanLevel, if_pos hcond, hnm] at hok
      exact ih (pos_updateAcc acc nm c hcond.2 hp) hok
  | case2 acc a b c d rest hcond hnone =>
      rw [scanLevel, if_pos hcond, hnone] at hok
      cases hok
  | case3 acc a b c d rest hcond ih =>
      rw [scanLevel, if_neg hcond] at hok
      exact ih hp hok
  | case4 t acc hshort =>
      rw [scanLevel_short names acc t
        (fun a b c d rest he => hshort a b c d rest he)] at hok
      cases hok
      exact hp

theorem buildSelfMap_pos (names : List String) (levels : List (List Int))
    (acc m : List (String × Int)) (hp : ∀ q ∈ acc, 0 < q.2)
    (hok : buildSelfMap names levels acc = Except.ok m) : ∀ q ∈ m, 0 < q.2 := by
  induction levels generalizing acc with
  | nil =>
      cases hok
      exact hp
  | cons lvl rest ih =>
      unfold buildSelfMap at hok
      cases hsc : scanLevel names acc lvl with
      | ok acc2 =>
          rw [hsc] at hok
          exact ih acc2 (scanLevel_pos names acc lvl acc2 hp hsc) hok
      | error e =>
          rw [hsc] at hok
          cases hok

theorem scanLevel_take (names : List String) (acc : List (String × Int))
    (lvl : List Int) :
    scanLevel names acc (lvl.take (4 * (lvl.length / 4))) = scanLevel names acc lvl := by
  induction acc, lvl using scanLevel.induct names with
  | case1 acc a b c d rest hcond nm hnm ih =>
      have h4 : 4 * ((a :: b :: c :: d :: rest : List Int).length / 4) =
          4 + 4 * (rest.length / 4) := by
        simp only [List.length_cons]
        omega
      rw [h4, List.take_add]
      show scanLevel names acc (a :: b :: c :: d :: rest.take (4 * (rest.length / 4))) = _
      rw [scanLevel, scanLevel, if_pos hcond, if_pos hcond, hnm]
      exact ih
  | case2 acc a b c d rest hcond hnone =>
      have h4 : 4 * ((a :: b :: c :: d :: rest : List Int).length / 4) =
          4 + 4 * (rest.length / 4) := by
        simp only [List.length_cons]
        omega
      rw [h4, List.take_add]
      show scanLevel names acc (a :: b :: c :: d :: rest.take (4 * (rest.length / 4))) = _
      rw [scanLevel, scanLevel, if_pos hcond, if_pos hcond, hnone]
  | case3 acc a b c d rest hcond ih =>
      have h4 : 4 * ((a :: b :: c :: d :: rest : List Int).length / 4) =
          4 + 4 * (rest.length / 4) := by
        simp only [List.length_cons]
        omega
      rw [h4, List.take_add]
      show scanLevel names acc (a :: b :: c :: d :: rest.take (4 * (rest.length / 4))) = _
      rw [scanLevel, scanLevel, if_neg hcond, if_neg hcond]
      exact ih
  | case4 t acc hshort =>
      have hlen : t.length < 4 := by
        match t with
        | [] => simp
        | [_] => simp
        | [_, _] => simp
        | [_, _, _] => simp
        | a :: b :: c :: d :: rest => exact absurd rfl (hshort a b c d rest)
      have : 4 * (t.length / 4) = 0 := by omega
      rw [this, List.take_zero]
      rw [scanLevel_short names acc t (fun a b c d rest he => hshort a b c d rest he)]
      rfl

theorem filter_orderedInsert (k : Int) (a : String × Int) (s : List (String × Int)) :
    (List.orderedInsert selfGE a s).filter (keyIs k) =
      if a.2 = k then a :: s.filter (keyIs k) else s.filter (keyIs k) := by
  induction s with
  | nil =>
      by_cases h : a.2 = k <;> simp [List.orderedInsert, keyIs, h]
  | cons b t ih =>
      by_cases hr : selfGE a b
      · rw [List.orderedInsert, if_pos hr]
        by_cases h : a.2 = k <;> simp [List.filter_cons, keyIs, h]
      · rw [List.orderedInsert, if_neg hr]
        have hb : a.2 < b.2 := lt_of_not_le hr
        by_cases hkb : b.2 = k
        · have hka : ¬ a.2 = k := by omega
          simp [List.filter_cons, keyIs, hkb, hka, ih]
        · by_cases h : a.2 = k <;> simp [List.filter_cons, keyIs, hkb, h, ih]

theorem filter_sortDesc (k : Int) (l : List (String × Int)) :
    (sortDesc l).filter (keyIs k) = l.filter (keyIs k) := by
  induction l with
  | nil => rfl
  | cons a t ih =>
      show (List.orderedInsert selfGE a (List.insertionSort selfGE t)).filter (keyIs k) = _
      rw [filter_orderedInsert]
      by_cases h : a.2 = k
      · simp [List.filter_cons, keyIs, h]
        exact ih
      · simp [List.filter_cons, keyIs, h]
        exact ih

theorem pyTake_sublist {α : Type} (n : Int) (xs : List α) : (pyTake n xs).Sublist xs := by
  unfold pyTake
  split <;> exact List.take_sublist _ _

theorem roundHalfEvenInt_pos_den (a b : Int) (hb : 0 < b) :
    roundHalfEvenInt a b =
      (if 2 * (a % b) < b then a / b
       else if b < 2 * (a % b) then a / b + 1
       else if (a / b) % 2 = 0 then a / b else a / b + 1) := by
  unfold roundHalfEvenInt
  have hnlt : ¬ b < 0 := by omega
  simp only [if_neg hnlt]
  rw [Int.fdiv_eq_ediv a hb.le]
  have hmod : a - a / b * b = a % b := by
    have := Int.ediv_add_emod a b
    have hcomm : b * (a / b) = a / b * b := by ring
    omega
  rw [hmod]

theorem roundHalfEvenInt_nonneg (a b : Int) (hb : 0 < b) (ha : 0 ≤ a) :
    0 ≤ roundHalfEvenInt a b := by
  rw [roundHalfEvenInt_pos_den a b hb]
  have hq : 0 ≤ a / b := Int.ediv_nonneg ha hb.le
  split_ifs <;> omega

theorem roundHalfEvenInt_le (a b M : Int) (hb : 0 < b) (h : a ≤ M * b) :
    roundHalfEvenInt a b ≤ M := by
  rw [roundHalfEvenInt_pos_den a b hb]
  have hr0 : 0 ≤ a % b := Int.emod_nonneg a (ne_of_gt hb)
  have hrb : a % b < b := Int.emod_lt_of_pos a hb
  have heq : b * (a / b) + a % b = a := Int.ediv_add_emod a b
  have hq : a / b ≤ M := by
    by_contra hc
    push_neg at hc
    have h2 : (M + 1) * b ≤ (a / b) * b :=
      mul_le_mul_of_nonneg_right (by omega) hb.le
    have h3 : (a / b) * b = b * (a / b) := by ring
    have h4 : (M + 1) * b = M * b + b := by ring
    omega
  by_cases hlt : 2 * (a % b) < b
  · rw [if_pos hlt]
    exact hq
  · have hne : a / b ≠ M := by
      intro he
      rw [he] at heq
      have : b * M = M * b := by ring
      omega
    rw [if_neg hlt]
    split_ifs <;> omega

theorem roundHalfEvenInt_eq_pos (a b : Int) (hb : 0 < b) :
    roundHalfEvenInt a b = roundHalfEvenQ ((a : ℚ) / (b : ℚ)) := by
  rw [roundHalfEvenInt_pos_den a b hb]
  unfold roundHalfEvenQ
  have hbq : (0 : ℚ) < (b : ℚ) := by exact_mod_cast hb
  have hfl : ⌊(a : ℚ) / (b : ℚ)⌋ = a / b := by
    have hbn : ((b.toNat : ℕ) : ℤ) = b := Int.toNat_of_nonneg hb.le
    have hcq : ((b.toNat : ℕ) : ℚ) = (b : ℚ) := by
      exact_mod_cast congrArg (fun z : ℤ => (z : ℚ)) hbn
    rw [← hcq, Rat.floor_intCast_div_natCast a b.toNat, hbn]
  have heq : b * (a / b) + a % b = a := Int.ediv_add_emod a b
  have hfrac : (a : ℚ) / (b : ℚ) - (((a / b : ℤ)) : ℚ) = ((a % b : ℤ) : ℚ) / (b : ℚ) := by
    have hz : ((a % b : ℤ) : ℚ) = (a : ℚ) - (b : ℚ) * ((a / b : ℤ) : ℚ) := by
      exact_mod_cast congrArg (fun z : ℤ => (z : ℚ)) (by omega : a % b = a - b * (a / b))
    rw [hz, sub_div, mul_div_cancel_left₀ _ (ne_of_gt hbq)]
  have hc1 : ((a % b : ℤ) : ℚ) / (b : ℚ) < 1/2 ↔ 2 * (a % b) < b := by
    rw [div_lt_iff₀ hbq]
    constructor
    · intro h
      have h2 : ((2 * (a % b) : ℤ) : ℚ) < ((b : ℤ) : ℚ) := by push_cast; linarith
      exact_mod_cast h2
    · intro h
      have h2 : ((2 * (a % b) : ℤ) : ℚ) < ((b : ℤ) : ℚ) := by exact_mod_cast h
      push_cast at h2
      linarith
  have hc2 : (1/2 : ℚ) < ((a % b : ℤ) : ℚ) / (b : ℚ) ↔ b < 2 * (a % b) := by
    rw [lt_div_iff₀ hbq]
    constructor
    · intro h
      have h2 : ((b : ℤ) : ℚ) < ((2 * (a % b) : ℤ) : ℚ) := by push_cast; linarith
      exact_mod_cast h2
    · intro h
      have h2 : ((b : ℤ) : ℚ) < ((2 * (a % b) : ℤ) : ℚ) := by exact_mod_cast h
      push_cast at h2
      linarith
  rw [hfl, hfrac]
  by_cases h1 : 2 * (a % b) < b
  · rw [if_pos h1, if_pos (hc1.2 h1)]
  · rw [if_neg h1, if_neg (fun hq => h1 (hc1.1 hq))]
    by_cases h2 : b < 2 * (a % b)
    · rw [if_pos h2, if_pos (hc2.2 h2)]
    · rw [if_neg h2, if_neg (fun hq => h2 (hc2.1 hq))]

theorem roundHalfEvenInt_eq (a b : Int) (hb : b ≠ 0) :
    roundHalfEvenInt a b = roundHalfEvenQ ((a : ℚ) / (b : ℚ)) := by
  rcases lt_or_gt_of_ne hb with hneg | hpos
  · have h1 : roundHalfEvenInt a b = roundHalfEvenInt (-a) (-b) := by
      unfold roundHalfEvenInt
      simp only [if_pos hneg, if_neg (by omega : ¬ (-b : Int) < 0)]
    rw [h1, roundHalfEvenInt_eq_pos (-a) (-b) (by omega)]
    congr 1
    push_cast
    rw [neg_div_neg_eq]
  · exact roundHalfEvenInt_eq_pos a b hpos

theorem pctTenths_eq (val total : Int) (ht : total ≠ 0) :
    ((pctTenths val total : ℤ) : ℚ) / 10 =
      pyRound1 ((val : ℚ) / (total : ℚ) * 100) := by
  unfold pctTenths pyRound1
  have htq : (total : ℚ) ≠ 0 := by exact_mod_cast ht
  have harg : (val : ℚ) / (total : ℚ) * 100 * 10 =
      ((1000 * val : ℤ) : ℚ) / (total : ℚ) := by
    push_cast
    field_simp
    ring
  rw [harg, ← roundHalfEvenInt_eq (1000 * val) total ht]

theorem buildSelfMap_take (names : List String) (levels : List (List Int))
    (acc : List (String × Int)) :
    buildSelfMap names (levels.map (fun l => l.take (4 * (l.length / 4)))) acc =
      buildSelfMap names levels acc := by
  induction levels generalizing acc with
  | nil => rfl
  | cons lvl rest ih =>
      simp only [List.map_cons]
      unfold buildSelfMap
      rw [scanLevel_take]
      cases scanLevel names acc lvl with
      | ok acc2 => exact ih acc2
      | error e => rfl

/-- C1, counterexample: the accumulated total is not the sum of `self_ticks`
over every complete frame group referencing the name. In the payload
`names=["a"]`, `levels=[[0,5,3,0, 0,2,-1,0]]`, both groups reference `a`,
so the claimed sum is `3 + (-1) = 2`, but the code skips the non-positive
group and reports `3` (60.0 percent of 5 ticks). -/
theorem c1_counterexample :
    pyro_top_functions (some ⟨["a"], [[0,5,3,0, 0,2,-1,0]], 5⟩) 5 =
      Except.ok [⟨"a", 3, 600⟩] ∧
    claimTotalAll ["a"] [[0,5,3,0, 0,2,-1,0]] "a" = 2 ∧ (3 : Int) ≠ 2 := by
  refine ⟨by decide, by decide, by decide⟩

/-- C1 (amended): `pyro_top_functions` aggregates self-time per function
name across all levels, summing the `self_ticks` of every complete frame
group with positive self-ticks that references the name (non-positive
groups are skipped), so a function appearing at several depths gets one
combined total; the two scenario payloads from the claim evaluate exactly
as stated. -/
theorem c1_aggregates (names : List String) (levels : List (List Int))
    (m : List (String × Int)) (nm : String)
    (hm : buildSelfMap names levels [] = Except.ok m) :
    lookupD m nm = specTotal names levels nm ∧
    pyro_top_functions (some ⟨["a", "b"], [[0,10,3,0, 0,7,4,1]], 10⟩) 2 =
      Except.ok [⟨"b", 4, 400⟩, ⟨"a", 3, 300⟩] ∧
    pyro_top_functions (some ⟨["a"], [[0,5,2,0], [0,5,3,0]], 5⟩) 5 =
      Except.ok [⟨"a", 5, 1000⟩] := by
  refine ⟨?_, by decide, by decide⟩
  have h := buildSelfMap_lookupD names levels [] m hm nm
  simpa [lookupD] using h

/-- C1 witness: the aggregation theorem applied to the two-level payload
`names=["a"]`, `levels=[[0,5,2,0],[0,5,3,0]]`, whose accumulator is
`[("a", 5)]`. -/
theorem c1_witness :
    lookupD [("a", 5)] "a" = specTotal ["a"] [[0,5,2,0], [0,5,3,0]] "a" ∧
    pyro_top_functions (some ⟨["a", "b"], [[0,10,3,0, 0,7,4,1]], 10⟩) 2 =
      Except.ok [⟨"b", 4, 400⟩, ⟨"a", 3, 300⟩] ∧
    pyro_top_functions (some ⟨["a"], [[0,5,2,0], [0,5,3,0]], 5⟩) 5 =
      Except.ok [⟨"a", 5, 1000⟩] :=
  c1_aggregates ["a"] [[0,5,2,0], [0,5,3,0]] [("a", 5)] "a" (by decide)

/-- C2: every level is scanned in non-overlapping groups of 4 from offset 0,
stopping once fewer than 4 elements remain: truncating every level to its
complete groups leaves the result unchanged, and the 5-element level
`[0,5,3,1,9]` behaves exactly like `[0,5,3,1]`, the trailing `9` ignored
without error. -/
theorem c2_groups_of_four (names : List String) (levels : List (List Int))
    (t n : Int) :
    pyro_top_functions (some ⟨names, levels, t⟩) n =
      pyro_top_functions
        (some ⟨names, levels.map (fun l => l.take (4 * (l.length / 4))), t⟩) n ∧
    pyro_top_functions (some ⟨["x", "y"], [[0,5,3,1,9]], 5⟩) 5 =
      pyro_top_functions (some ⟨["x", "y"], [[0,5,3,1]], 5⟩) 5 := by
  refine ⟨?_, by decide⟩
  show (if t = 0 then Except.ok [] else _) = (if t = 0 then Except.ok [] else _)
  by_cases ht : t = 0
  · rw [if_pos ht, if_pos ht]
  · rw [if_neg ht, if_neg ht, buildSelfMap_take]

/-- C3, counterexample: a negative result size does not yield an empty
sequence. With two accumulated functions and `n = -1`, the Python slice
`[:-1]` keeps the first entry, so the result is non-empty. -/
theorem c3_counterexample :
    pyro_top_functions (some ⟨["a", "b"], [[0,10,3,0, 0,7,4,1]], 10⟩) (-1) ≠
      Except.ok [] := by decide

/-- C3 (amended): for every fetched payload, a result size of zero yields an
empty sequence; a negative `n` is instead treated as a Python slice bound
`[:n]`, dropping the last `-n` ranked entries and possibly returning a
non-empty sequence, as the concrete `n = -1` payload shows. -/
theorem c3_zero_n (data : Option Flamebearer) (r : List TopEntry)
    (h : pyro_top_functions data 0 = Except.ok r) :
    r = [] ∧
    pyro_top_functions (some ⟨["a", "b"], [[0,10,3,0, 0,7,4,1]], 10⟩) (-1) =
      Except.ok [⟨"b", 4, 400⟩] := by
  refine ⟨?_, by decide⟩
  match data with
  | none =>
      cases h
      rfl
  | some fb =>
      have h2 : (if fb.numTicks = 0 then Except.ok []
          else match buildSelfMap fb.names fb.levels [] with
            | Except.error e => Except.error e
            | Except.ok m =>
                Except.ok ((pyTake 0 (sortDesc m)).map (fun p =>
                  { function := p.1, self := p.2,
                    pct := pctTenths p.2 fb.numTicks }))) = Except.ok r := h
      by_cases ht : fb.numTicks = 0
      · rw [if_pos ht] at h2
        cases h2
        rfl
      · rw [if_neg ht] at h2
        cases hbm : buildSelfMap fb.names fb.levels [] with
        | error e =>
            rw [hbm] at h2
            cases h2
        | ok m =>
            rw [hbm] at h2
            cases h2
            rfl

/-- C3 witness: the zero-`n` theorem applied to a concrete one-function
payload, together with the concrete negative-`n` evaluation. -/
theorem c3_witness :
    ([] : List TopEntry) = [] ∧
    pyro_top_functions (some ⟨["a", "b"], [[0,10,3,0, 0,7,4,1]], 10⟩) (-1) =
      Except.ok [⟨"b", 4, 400⟩] :=
  c3_zero_n (some ⟨["a"], [[0,5,2,0]], 5⟩) [] (by decide)

/-- C4, counterexample: a complete frame group whose name index is out of
bounds is not always skipped. With `names=["a","b"]` and the group
`[0,5,3,-1]`, the index `-1` is outside the valid positions `0..1`, yet the
guard `name_idx < len(names)` accepts it and Python indexing from the end
credits the 3 self-ticks to `"b"`, so the result is not empty. -/
theorem c4_counterexample :
    pyro_top_functions (some ⟨["a", "b"], [[0,5,3,-1]], 5⟩) 5 =
      Except.ok [⟨"b", 3, 600⟩] ∧
    pyro_top_functions (some ⟨["a", "b"], [[0,5,3,-1]], 5⟩) 5 ≠
      Except.ok [] := by
  refine ⟨by decide, by decide⟩

/-- C4 (amended): a complete frame group whose name index is at least
`len(names)` is skipped — it contributes nothing to any function and causes
no error; negative name indices are not checked by the guard (those within
`-len(names)` index from the end, lower ones raise `IndexError`). A payload
whose only group has such a too-large index produces an empty ranking. -/
theorem c4_skips_large_index (names : List String) (acc : List (String × Int))
    (a b c d : Int) (rest : List Int) (h : (names.length : Int) ≤ d) :
    scanLevel names acc (a :: b :: c :: d :: rest) = scanLevel names acc rest ∧
    pyro_top_functions (some ⟨["a"], [[0,9,3,5]], 9⟩) 5 = Except.ok [] := by
  refine ⟨?_, by decide⟩
  rw [scanLevel, if_neg]
  rintro ⟨h1, -⟩
  omega

/-- C4 witness: the skip theorem applied to the group `[0,9,3,5]` against a
single-name list, whose index 5 is out of range. -/
theorem c4_witness :
    scanLevel ["a"] [] [0,9,3,5] = scanLevel ["a"] [] ([] : List Int) ∧
    pyro_top_functions (some ⟨["a"], [[0,9,3,5]], 9⟩) 5 = Except.ok [] :=
  c4_skips_large_index ["a"] [] 0 9 3 5 [] (by decide)

/-- C5: a payload whose flamebearer has `numTicks = 0` yields an empty
sequence for every `names`, `levels` and `n` — the guard short-circuits
before the scan and before any division, so the zero-ticks case is a
defined degenerate case, not a divide-by-zero error. -/
theorem c5_zero_ticks (names : List String) (levels : List (List Int))
    (n : Int) :
    pyro_top_functions (some ⟨names, levels, 0⟩) n = Except.ok [] := rfl

/-- C6: the ranking returned by `pyro_top_functions` is sorted by aggregate
self-time descending, and the tie-break is stable: for every total `k`, the
output entries with that total appear in the same relative order as in the
accumulator `self_map` (insertion order: level order, then within-level scan
order). -/
theorem c6_stable_ranking (names : List String) (levels : List (List Int))
    (t n : Int) (m : List (String × Int)) (r : List TopEntry)
    (hm : buildSelfMap names levels [] = Except.ok m)
    (hr : pyro_top_functions (some ⟨names, levels, t⟩) n = Except.ok r) :
    List.Sorted (fun e1 e2 : TopEntry => e2.self ≤ e1.self) r ∧
    ∀ k : Int, ((r.filter (entryKeyIs k)).map TopEntry.function).Sublist
      ((m.filter (keyIs k)).map Prod.fst) := by
  have h2 : (if t = 0 then Except.ok []
      else match buildSelfMap names levels [] with
        | Except.error e => Except.error e
        | Except.ok m' =>
            Except.ok ((pyTake n (sortDesc m')).map (fun p =>
              { function := p.1, self := p.2,
                pct := pctTenths p.2 t }))) = Except.ok r := hr
  by_cases ht : t = 0
  · rw [if_pos ht] at h2
    cases h2
    exact ⟨List.sorted_nil, fun k => by simp⟩
  · rw [if_neg ht, hm] at h2
    cases h2
    constructor
    · have hs : List.Sorted selfGE (sortDesc m) :=
        List.sorted_insertionSort selfGE m
      have hs2 : List.Sorted selfGE (pyTake n (sortDesc m)) :=
        List.Pairwise.sublist (pyTake_sublist n (sortDesc m)) hs
      exact List.pairwise_map.mpr hs2
    · intro k
      rw [List.filter_map, List.map_map]
      have h1 : ((pyTake n (sortDesc m)).filter (keyIs k)).Sublist
          ((sortDesc m).filter (keyIs k)) :=
        List.Sublist.filter (keyIs k) (pyTake_sublist n (sortDesc m))
      rw [filter_sortDesc] at h1
      exact List.Sublist.map Prod.fst h1

/-- C6 witness: the ranking theorem applied to the two-function payload
whose accumulator is `[("a", 3), ("b", 4)]`, specialised to the total 4. -/
theorem c6_witness :
    ((([⟨"b", 4, 400⟩, ⟨"a", 3, 300⟩] : List TopEntry).filter
        (entryKeyIs 4)).map TopEntry.function).Sublist
      ((([("a", 3), ("b", 4)] : List (String × Int)).filter (keyIs 4)).map
        Prod.fst) :=
  (c6_stable_ranking ["a", "b"] [[0,10,3,0, 0,7,4,1]] 10 2
    [("a", 3), ("b", 4)] [⟨"b", 4, 400⟩, ⟨"a", 3, 300⟩]
    (by decide) (by decide)).2 4

/-- C7, counterexample: `pct` is not always within `[0, 100]`. In the
payload `names=["a"]`, `levels=[[0,5,5,0]]`, `numTicks=1`, the single
function has 5 self-ticks against 1 total tick, so
`round(5 / 1 * 100, 1) = 500.0`, outside `[0, 100]`. -/
theorem c7_counterexample :
    pyro_top_functions (some ⟨["a"], [[0,5,5,0]], 1⟩) 5 =
      Except.ok [⟨"a", 5, 5000⟩] ∧
    ¬ (((5000 : Int) : ℚ) / 10 ≤ 100) := by
  refine ⟨by decide, by norm_num⟩

/-- C7 (amended): every `pct` field equals `round(self / numTicks * 100, 1)`
exactly (the stored tenths-of-a-percent integer, divided by 10, is the
half-to-even rounding of the exact rational); and for valid flamebearers
(non-negative fields, total self-ticks at most `numTicks`) every `pct` lies
in `[0, 100]` — but not for arbitrary inconsistent payloads, as the
counterexample shows. -/
theorem c7_pct_formula (fb : Flamebearer) (n : Int) (r : List TopEntry)
    (hv : ValidFlamebearer fb)
    (hr : pyro_top_functions (some fb) n = Except.ok r) :
    ∀ e ∈ r, (e.pct : ℚ) / 10 =
        pyRound1 ((e.self : ℚ) / (fb.numTicks : ℚ) * 100) ∧
      0 ≤ (e.pct : ℚ) / 10 ∧ (e.pct : ℚ) / 10 ≤ 100 := by
  obtain ⟨names, levels, t⟩ := fb
  have h2 : (if t = 0 then Except.ok []
      else match buildSelfMap names levels [] with
        | Except.error e => Except.error e
        | Except.ok m' =>
            Except.ok ((pyTake n (sortDesc m')).map (fun p =>
              { function := p.1, self := p.2,
                pct := pctTenths p.2 t }))) = Except.ok r := hr
  by_cases ht : t = 0
  · rw [if_pos ht] at h2
    cases h2
    intro e he
    simp at he
  · rw [if_neg ht] at h2
    cases hbm : buildSelfMap names levels [] with
    | error e =>
        rw [hbm] at h2
        cases h2
    | ok m =>
        rw [hbm] at h2
        cases h2
        intro e he
        obtain ⟨p, hp, rfl⟩ := List.mem_map.1 he
        have hpm : p ∈ m := by
          have hp1 : p ∈ sortDesc m := (pyTake_sublist n (sortDesc m)).subset hp
          exact (List.perm_insertionSort selfGE m).subset hp1
        have hpos : 0 < p.2 :=
          buildSelfMap_pos names levels [] m (by simp) hbm p hpm
        have hnnvals : ∀ x ∈ m.map Prod.snd, (0 : Int) ≤ x := by
          intro x hx
          obtain ⟨q, hq, rfl⟩ := List.mem_map.1 hx
          exact (buildSelfMap_pos names levels [] m (by simp) hbm q hq).le
        have hle1 : p.2 ≤ sumVals m :=
          List.single_le_sum hnnvals p.2 (List.mem_map_of_mem Prod.snd hpm)
        have hle2 : sumVals m ≤ rawSelfTotal levels := by
          have := buildSelfMap_sumVals_le names levels [] m hv.fields_nonneg hbm
          simpa [sumVals] using this
        have hle3 : p.2 ≤ t := le_trans hle1 (le_trans hle2 hv.self_le_ticks)
        have ht0 : 0 < t := lt_of_le_of_ne hv.ticks_nonneg (Ne.symm ht)
        refine ⟨pctTenths_eq p.2 t ht, ?_, ?_⟩
        · have h0 : 0 ≤ pctTenths p.2 t :=
            roundHalfEvenInt_nonneg (1000 * p.2) t ht0 (by positivity)
          have h0q : (0 : ℚ) ≤ ((pctTenths p.2 t : ℤ) : ℚ) := by exact_mod_cast h0
          positivity
        · have hup : pctTenths p.2 t ≤ 1000 := by
            apply roundHalfEvenInt_le (1000 * p.2) t 1000 ht0
            have := mul_le_mul_of_nonneg_left hle3 (by norm_num : (0 : Int) ≤ 1000)
            linarith
          have hupq : ((pctTenths p.2 t : ℤ) : ℚ) ≤ 1000 := by exact_mod_cast hup
          linarith

/-- C7 witness: the formula-and-range theorem applied to the valid
two-function payload, at the leading entry `{"b", 4, 40.0}`. -/
theorem c7_witness :
    ((400 : Int) : ℚ) / 10 =
        pyRound1 (((4 : Int) : ℚ) / ((10 : Int) : ℚ) * 100) ∧
      0 ≤ ((400 : Int) : ℚ) / 10 ∧ ((400 : Int) : ℚ) / 10 ≤ 100 :=
  c7_pct_formula ⟨["a", "b"], [[0,10,3,0, 0,7,4,1]], 10⟩ 2
    [⟨"b", 4, 400⟩, ⟨"a", 3, 300⟩]
    ⟨by decide, by decide, by decide, by decide⟩ (by decide)
    ⟨"b", 4, 400⟩ (by decide)

/-- C8: for every valid flamebearer (non-negative frame fields, total
self-ticks at most `numTicks`), the sum of the `self` values returned by
`pyro_top_functions` never exceeds `numTicks`: aggregation only regroups
positive self-ticks, sorting permutes, and the slice only drops entries. -/
theorem c8_sum_le_ticks (fb : Flamebearer) (n : Int) (r : List TopEntry)
    (hv : ValidFlamebearer fb)
    (hr : pyro_top_functions (some fb) n = Except.ok r) :
    (r.map TopEntry.self).sum ≤ fb.numTicks := by
  obtain ⟨names, levels, t⟩ := fb
  have h2 : (if t = 0 then Except.ok []
      else match buildSelfMap names levels [] with
        | Except.error e => Except.error e
        | Except.ok m' =>
            Except.ok ((pyTake n (sortDesc m')).map (fun p =>
              { function := p.1, self := p.2,
                pct := pctTenths p.2 t }))) = Except.ok r := hr
  by_cases ht : t = 0
  · rw [if_pos ht] at h2
    cases h2
    simpa using hv.ticks_nonneg
  · rw [if_neg ht] at h2
    cases hbm : buildSelfMap names levels [] with
    | error e =>
        rw [hbm] at h2
        cases h2
    | ok m =>
        rw [hbm] at h2
        cases h2
        rw [List.map_map]
        show (List.map Prod.snd (pyTake n (sortDesc m))).sum ≤ t
        have hnn : ∀ x ∈ (sortDesc m).map Prod.snd, (0 : Int) ≤ x := by
          intro x hx
          obtain ⟨q, hq, rfl⟩ := List.mem_map.1 hx
          have hqm : q ∈ m := (List.perm_insertionSort selfGE m).subset hq
          exact (buildSelfMap_pos names levels [] m (by simp) hbm q hqm).le
        have hsub : ((pyTake n (sortDesc m)).map Prod.snd).Sublist
            ((sortDesc m).map Prod.snd) :=
          List.Sublist.map Prod.snd (pyTake_sublist n (sortDesc m))
        have h3 : ((pyTake n (sortDesc m)).map Prod.snd).sum ≤
            ((sortDesc m).map Prod.snd).sum :=
          List.Sublist.sum_le_sum hsub hnn
        have h4 : ((sortDesc m).map Prod.snd).sum = sumVals m :=
          List.Perm.sum_eq (List.Perm.map Prod.snd (List.perm_insertionSort selfGE m))
        have h5 : sumVals m ≤ rawSelfTotal levels := by
          have := buildSelfMap_sumVals_le names levels [] m hv.fields_nonneg hbm
          simpa [sumVals] using this
        have h6 : rawSelfTotal levels ≤ t := hv.self_le_ticks
        omega

/-- C8 witness: the sum bound applied to the valid two-function payload:
the returned self values 4 and 3 sum to 7, at most the 10 total ticks. -/
theorem c8_witness :
    (([⟨"b", 4, 400⟩, ⟨"a", 3, 300⟩] : List TopEntry).map TopEntry.self).sum ≤
      (10 : Int) :=
  c8_sum_le_ticks ⟨["a", "b"], [[0,10,3,0, 0,7,4,1]], 10⟩ 2
    [⟨"b", 4, 400⟩, ⟨"a", 3, 300⟩]
    ⟨by decide, by decide, by decide, by decide⟩ (by decide)

/-- C9: the never-raises contract is violated by the code. A fetch failure
and a missing flamebearer both degrade to an empty sequence, but the
structurally well-formed fetched payload `flamebearer = {names: ["a"],
levels: [[0,1,1,-2]], numTicks: 1}` raises `IndexError`: the guard
`name_idx < len(names)` accepts the negative index `-2`, and
`names[-2]` on a one-element list is out of range even for Python's
from-the-end indexing. -/
theorem c9_raises_on_negative_index :
    pyro_top_functions (some ⟨["a"], [[0,1,1,-2]], 1⟩) 5 =
      Except.error "IndexError" ∧
    pyro_top_functions none 5 = Except.ok [] ∧
    pyro_top_functions (some ⟨[], [], 0⟩) 5 = Except.ok [] := by
  refine ⟨by decide, by decide, by decide⟩

/-- C10: a Prometheus result row whose metric has no `instance` label is
keyed under the literal string `"unknown"` (which the before-first-colon
normalization leaves unchanged) rather than skipped, whenever its value
parses as a float. -/
theorem c10_unknown_instance (out : List (String × ℚ)) (r : PromRow) (v : ℚ)
    (hmiss : lookupLabel r.metric "instance" = none)
    (hv : r.value.get? 1 = some (some v)) :
    promStep out r = pyDictInsert out "unknown" v ∧
    prom_instant [r] = [("unknown", v)] := by
  have key : ∀ o : List (String × ℚ), promStep o r = pyDictInsert o "unknown" v := by
    intro o
    unfold promStep
    rw [hmiss, hv]
    show pyDictInsert o (beforeColon ((none : Option String).getD "unknown")) v =
      pyDictInsert o "unknown" v
    have hbc : beforeColon ((none : Option String).getD "unknown") = "unknown" := by
      decide
    rw [hbc]
  refine ⟨key out, ?_⟩
  show promStep [] r = _
  rw [key []]
  rfl

/-- C10 witness: a concrete row with only a `job` label and the value pair
`[0, 3.0]` is stored under `"unknown"`. -/
theorem c10_witness :
    promStep [] ⟨[("job", "x")], [some 0, some 3]⟩ =
      pyDictInsert [] "unknown" 3 ∧
    prom_instant [⟨[("job", "x")], [some 0, some 3]⟩] = [("unknown", 3)] :=
  c10_unknown_instance [] ⟨[("job", "x")], [some 0, some 3]⟩ 3 (by decide) rfl

end PyroApi
